import Mathlib

set_option maxRecDepth 200000

/-!
# Verification of the expression evaluator of `IsNotDes/calculator`

Shallow embedding of `calculate` from `src/main.rs`.  Strings are modelled as
`List Char` (the inputs of interest are ASCII, where Rust's byte indices agree
with character indices).  IEEE-754 binary64 values are modelled exactly:

* a finite double is a dyadic rational `m * 2^e` in canonical form
  (`m` odd, or `m = 0` and `e = 0`);
* `roundRat` performs IEEE round-to-nearest-even on an exact rational
  `n / d`, overflowing to an infinity at `2^1024`, exactly as both the Rust
  float parser (which is correctly rounded) and the hardware operations do;
* the distinction between `+0.0` and `-0.0` is not observable through any
  code path of `calculate` (only `==`-comparisons and value results), so the
  model identifies the two zeros.

`f64::from_str` is embedded following its documented grammar
(optional sign; `inf`/`infinity`/`nan` case-insensitively; otherwise decimal
digits with optional fraction and optional exponent), with the resulting exact
decimal value rounded to the nearest double.
-/

/-- A finite binary64 value `m * 2^e`, kept in canonical form
(`m` odd, or `m = 0 ∧ e = 0`). -/
structure Dy where
  m : Int
  e : Int
deriving DecidableEq, Repr

/-- A binary64 value: NaN, one of the two infinities, or a finite value. -/
inductive FVal where
  | nan : FVal
  | pinf : FVal
  | ninf : FVal
  | fin : Dy → FVal
deriving DecidableEq, Repr

/-- Binary exponentiation by structural recursion on a fuel argument; the
fuel `n + 1` in `npow` is always sufficient, and the evaluation depth is
logarithmic in `n` (kernel-friendly for the huge exponents of binary64
arithmetic). -/
def powGo (b : Nat) : Nat → Nat → Nat
  | 0, _ => 1
  | f + 1, n =>
    if n = 0 then 1
    else
      let h := powGo b f (n / 2)
      if n % 2 = 0 then h * h else h * h * b

/-- `npow b n = b ^ n` (see `npow_eq`). -/
def npow (b n : Nat) : Nat := powGo b (n + 1) n

/-- Floor of the base-2 logarithm for `n < 2^64`, by fuelled halving. -/
def lgSmall : Nat → Nat → Nat
  | 0, _ => 0
  | f + 1, n => if 2 ≤ n then lgSmall f (n / 2) + 1 else 0

/-- Floor of the base-2 logarithm, peeling 64 bits per step so the
evaluation depth stays proportional to the bit length divided by 64. -/
def lgGo : Nat → Nat → Nat
  | 0, _ => 0
  | f + 1, n =>
    if n < 18446744073709551616 then lgSmall 64 n
    else lgGo f (n / 18446744073709551616) + 64

/-- `lg2 n` is `⌊log₂ n⌋` for `n ≥ 1`. -/
def lg2 (n : Nat) : Nat := lgGo n n

/-- Split `m` as `odd * 2^k` (within fuel; 64 suffices for all mantissas). -/
def oddify : Nat → Nat → Nat × Nat
  | 0, m => (m, 0)
  | f + 1, m =>
    if m % 2 = 0 ∧ m ≠ 0 then
      let p := oddify f (m / 2)
      (p.1, p.2 + 1)
    else (m, 0)

/-- Is `a / b ≥ 2^k` (for `a, b ≥ 1`)? -/
def qGeTwoPow (a b : Nat) (k : Int) : Bool :=
  if 0 ≤ k then b * npow 2 k.toNat ≤ a else b ≤ a * npow 2 (-k).toNat

/-- Round the positive rational `a / b` (`a, b ≥ 1`) to the nearest binary64
value, ties to even, overflowing to infinity; `neg` gives the sign. -/
def roundPos (neg : Bool) (a b : Nat) : FVal :=
  let e0 : Int := (lg2 a : Int) - (lg2 b : Int)
  let e : Int := if qGeTwoPow a b e0 then e0 else e0 - 1
  let E : Int := max e (-1022)
  let sh : Int := E - 52
  let mn : Nat := if sh ≤ 0 then a * npow 2 (-sh).toNat else a
  let md : Nat := if sh ≤ 0 then b else b * npow 2 sh.toNat
  let q0 : Nat := mn / md
  let r : Nat := mn % md
  let m : Nat :=
    if 2 * r < md then q0
    else if md < 2 * r then q0 + 1
    else if q0 % 2 = 0 then q0 else q0 + 1
  if npow 2 (1024 - sh).toNat ≤ m then (if neg then .ninf else .pinf)
  else
    let p := oddify 64 m
    if p.1 = 0 then .fin ⟨0, 0⟩
    else .fin ⟨(if neg then -(p.1 : Int) else (p.1 : Int)), sh + p.2⟩

/-- Round the exact rational `n / d` (`d ≠ 0`) to the nearest binary64. -/
def roundRat (n : Int) (d : Int) : FVal :=
  if d = 0 then .nan
  else if n = 0 then .fin ⟨0, 0⟩
  else roundPos ((n < 0) ≠ (d < 0)) n.natAbs d.natAbs

/-- Round the exact dyadic `n * 2^e` to the nearest binary64. -/
def roundDyadic (n : Int) (e : Int) : FVal :=
  if 0 ≤ e then roundRat (n * (npow 2 e.toNat : Nat)) 1
  else roundRat n (npow 2 (-e).toNat : Nat)

namespace FVal

/-- IEEE addition on binary64 values. -/
def addF : FVal → FVal → FVal
  | .fin x, .fin y =>
    let mn := min x.e y.e
    roundDyadic (x.m * (npow 2 (x.e - mn).toNat : Nat) +
      y.m * (npow 2 (y.e - mn).toNat : Nat)) mn
  | .nan, _ => .nan
  | _, .nan => .nan
  | .pinf, .ninf => .nan
  | .ninf, .pinf => .nan
  | .pinf, _ => .pinf
  | _, .pinf => .pinf
  | .ninf, _ => .ninf
  | _, .ninf => .ninf

/-- IEEE subtraction on binary64 values. -/
def subF : FVal → FVal → FVal
  | .fin x, .fin y =>
    let mn := min x.e y.e
    roundDyadic (x.m * (npow 2 (x.e - mn).toNat : Nat) -
      y.m * (npow 2 (y.e - mn).toNat : Nat)) mn
  | .nan, _ => .nan
  | _, .nan => .nan
  | .pinf, .pinf => .nan
  | .ninf, .ninf => .nan
  | .pinf, _ => .pinf
  | _, .pinf => .ninf
  | .ninf, _ => .ninf
  | _, .ninf => .pinf

/-- IEEE multiplication on binary64 values. -/
def mulF : FVal → FVal → FVal
  | .fin x, .fin y => roundDyadic (x.m * y.m) (x.e + y.e)
  | .nan, _ => .nan
  | _, .nan => .nan
  | .pinf, .fin y => if y.m = 0 then .nan else if 0 < y.m then .pinf else .ninf
  | .ninf, .fin y => if y.m = 0 then .nan else if 0 < y.m then .ninf else .pinf
  | .fin x, .pinf => if x.m = 0 then .nan else if 0 < x.m then .pinf else .ninf
  | .fin x, .ninf => if x.m = 0 then .nan else if 0 < x.m then .ninf else .pinf
  | .pinf, .pinf => .pinf
  | .pinf, .ninf => .ninf
  | .ninf, .pinf => .ninf
  | .ninf, .ninf => .pinf

/-- IEEE division on binary64 values. -/
def divF : FVal → FVal → FVal
  | .fin x, .fin y =>
    if y.m = 0 then
      if x.m = 0 then .nan else if 0 < x.m then .pinf else .ninf
    else
      let d : Int := x.e - y.e
      if 0 ≤ d then roundRat (x.m * (npow 2 d.toNat : Nat)) y.m
      else roundRat x.m (y.m * (npow 2 (-d).toNat : Nat))
  | .nan, _ => .nan
  | _, .nan => .nan
  | .pinf, .pinf => .nan
  | .pinf, .ninf => .nan
  | .ninf, .pinf => .nan
  | .ninf, .ninf => .nan
  | .pinf, .fin y => if 0 ≤ y.m then .pinf else .ninf
  | .ninf, .fin y => if 0 ≤ y.m then .ninf else .pinf
  | .fin _, .pinf => .fin ⟨0, 0⟩
  | .fin _, .ninf => .fin ⟨0, 0⟩

/-- `f64::is_infinite`. -/
def isInfinite : FVal → Bool
  | .pinf => true
  | .ninf => true
  | _ => false

/-- `f64::is_nan`. -/
def isNan : FVal → Bool
  | .nan => true
  | _ => false

/-- IEEE `== 0.0` comparison. -/
def eqZero : FVal → Bool
  | .fin d => d.m = 0
  | _ => false

/-- IEEE `> 0.0` comparison. -/
def gtZero : FVal → Bool
  | .fin d => 0 < d.m
  | .pinf => true
  | _ => false

/-- `v.abs() < f64::EPSILON`, i.e. `|v| < 2^(-52)` (false for NaN and
infinities, as in IEEE comparisons). -/
def absLtEps : FVal → Bool
  | .fin d => d.m.natAbs * npow 2 (d.e - (-52)).toNat < npow 2 ((-52) - d.e).toNat
  | _ => false

end FVal

/-- The binary64 value of the Rust literal `1e-14`. -/
def c14 : Dy :=
  match roundRat 1 (npow 10 14 : Nat) with
  | .fin d => d
  | _ => ⟨0, 0⟩

/-- Numeric value of a digit string (most significant first). -/
def digsVal (cs : List Char) : Nat :=
  cs.foldl (fun acc c => acc * 10 + (c.toNat - 48)) 0

/-- Exponent digits: all characters must be digits, at least one. -/
def expNat (cs : List Char) : Option Int :=
  if cs ≠ [] ∧ cs.all Char.isDigit then some (digsVal cs : Int) else none

/-- Exponent with optional sign. -/
def expVal (cs : List Char) : Option Int :=
  if cs.head? = some '+' then expNat cs.tail
  else if cs.head? = some '-' then (expNat cs.tail).map (fun n => -n)
  else expNat cs

/-- Decimal number after the sign: returns `(D, x)` such that the value is
`D * 10^x`.  Follows the `f64::from_str` grammar:
`Digit+ | Digit+ '.' Digit* | '.' Digit+`, optionally followed by
`('e'|'E') Sign? Digit+`, consuming the whole string. -/
def parseNum (cs : List Char) : Option (Nat × Int) :=
  let ip := cs.takeWhile Char.isDigit
  let r1 := cs.dropWhile Char.isDigit
  if r1 = [] then (if ip.isEmpty then none else some (digsVal ip, 0))
  else if r1.head? = some '.' then
    let fp := r1.tail.takeWhile Char.isDigit
    let r2 := r1.tail.dropWhile Char.isDigit
    if ip.isEmpty ∧ fp.isEmpty then none
    else if r2 = [] then some (digsVal (ip ++ fp), -(fp.length : Int))
    else if r2.head? = some 'e' ∨ r2.head? = some 'E' then
      (expVal r2.tail).map (fun x => (digsVal (ip ++ fp), x - (fp.length : Int)))
    else none
  else if (r1.head? = some 'e' ∨ r1.head? = some 'E') ∧ ¬ ip.isEmpty then
    (expVal r1.tail).map (fun x => (digsVal ip, x))
  else none

/-- Case-insensitive comparison against a lowercase word. -/
def lowerEq (as bs : List Char) : Bool :=
  as.map Char.toLower = bs

/-- The exact decimal value `±D * 10^x` rounded to the nearest binary64. -/
def decToF (neg : Bool) (D : Nat) (x : Int) : FVal :=
  let s : Int := if neg then -(D : Int) else (D : Int)
  if 0 ≤ x then roundRat (s * (npow 10 x.toNat : Nat)) 1
  else roundRat s (npow 10 (-x).toNat : Nat)

/-- `f64::from_str`, on the character list of the operand substring. -/
def parseF64 (cs : List Char) : Option FVal :=
  if cs = [] then none
  else
    let neg : Bool := cs.head? = some '-'
    let rest : List Char :=
      if cs.head? = some '+' ∨ cs.head? = some '-' then cs.tail else cs
    if lowerEq rest ['i', 'n', 'f'] ∨ lowerEq rest ['i', 'n', 'f', 'i', 'n', 'i', 't', 'y'] then
      some (if neg then .ninf else .pinf)
    else if lowerEq rest ['n', 'a', 'n'] then some .nan
    else
      match parseNum rest with
      | none => none
      | some p => some (decToF neg p.1 p.2)

/-- Is `c` one of the four operator characters `+ - * /`? -/
def opChar (c : Char) : Bool :=
  c = '+' ∨ c = '-' ∨ c = '*' ∨ c = '/'

/-- Is `c` in the set that does not reset the scientific-notation state
(`src/main.rs` line 22): digit, `.`, `e`, `E`, `+`, `-`? -/
def keepCh (c : Char) : Bool :=
  c.isDigit ∨ c = '.' ∨ c = 'e' ∨ c = 'E' ∨ c = '+' ∨ c = '-'

/-- The operator-scanning loop of `src/main.rs` lines 16–25.  `sci` is the
`in_scientific` flag, `i` the absolute index of the current character. -/
def findOpAux : Bool → List Char → Nat → Option Nat
  | _, [], _ => none
  | sci, c :: cs, i =>
    if c = 'e' ∨ c = 'E' then findOpAux true cs (i + 1)
    else if opChar c ∧ sci = false then some i
    else if keepCh c = false then findOpAux false cs (i + 1)
    else findOpAux sci cs (i + 1)

/-- Operator position in the trimmed input: skip a leading `-`
(`src/main.rs` line 14) and scan. -/
def scanOf (ts : List Char) : Option Nat :=
  if ts.head? = some '-' then findOpAux false (ts.drop 1) 1
  else findOpAux false ts 0

/-- `str::trim` (on the whitespace characters relevant here). -/
def trim (cs : List Char) : List Char :=
  (((cs.dropWhile Char.isWhitespace).reverse).dropWhile Char.isWhitespace).reverse

/-- Lines 27–76 of `src/main.rs`: parse both operand substrings, check for
infinities and NaN, and apply the operator (with the division-by-zero
guards).  Returns the `result` value before the overflow check. -/
def evalOps (num1Str : List Char) (operator : Char) (num2Str : List Char) :
    Except String FVal :=
  match parseF64 num1Str with
  | none => .error "Invalid first number"
  | some num1 =>
    if num1.isInfinite then .error "First number is too large or too small"
    else
      match parseF64 num2Str with
      | none => .error "Invalid second number"
      | some num2 =>
        if num2.isInfinite then .error "Second number is too large or too small"
        else if num1.isNan || num2.isNan then .error "NaN is not a valid number"
        else
          match operator with
          | '+' => .ok (num1.addF num2)
          | '-' => .ok (num1.subF num2)
          | '*' => .ok (num1.mulF num2)
          | '/' =>
            if num2.eqZero then
              if num1.eqZero then .error "Division by zero"
              else if num1.gtZero then .error "Result is too large (infinity)"
              else .error "Result is too small (negative infinity)"
            else .ok (num1.divF num2)
          | _ => .error "Invalid operator"

/-- Lines 6–76 of `src/main.rs`: trim, find the operator, split, and compute
the raw `result`. -/
def calcCore (input0 : List Char) : Except String FVal :=
  let input := trim input0
  if input.isEmpty then .error "Empty input"
  else
    match scanOf input with
    | none => .error "No operator found"
    | some pos =>
      evalOps (trim (input.take pos)) (input.getD pos ' ') (trim (input.drop (pos + 1)))

/-- `calculate` from `src/main.rs`: the raw result, the overflow check of
line 79, and the precision clamp of lines 83–86. -/
def calculate (input : List Char) : Except String FVal :=
  match calcCore input with
  | .error e => .error e
  | .ok result =>
    if result.isInfinite then .error "Result is too large or too small"
    else if (result.subF (.fin c14)).absLtEps then .ok (.fin c14)
    else .ok result

deriving instance DecidableEq for Except

/-! ## Specification-side definitions

These restate conditions in the words of the specification, to be compared
with the definitions translated from the source. -/

/-- Exponent-context state transition, as the specification words it: a
character is in exponent context when it immediately follows an `e`/`E`; the
context resets once a subsequent character that is not a digit, `.`, `e`,
`E`, `+`, or `-` is seen. -/
def specCtxStep (ctx : Bool) (c : Char) : Bool :=
  if c = 'e' ∨ c = 'E' then true
  else if c.isDigit ∨ c = '.' ∨ c = '+' ∨ c = '-' then ctx
  else false

/-- Position of the first operator character that is **not** in exponent
context, per the specification (relative index; `st` is the incoming
context). -/
def specSelectFrom (st : Bool) : List Char → Option Nat
  | [] => none
  | c :: cs =>
    if opChar c ∧ st = false then some 0
    else (specSelectFrom (specCtxStep st c) cs).map (· + 1)

/-- Does the operator scan pass over `cs` without selecting any character,
starting in state `sci`?  (The scan's per-character state update coincides
with `specCtxStep`, as `findOpAux_eq_spec` proves.) -/
def scanPasses (sci : Bool) : List Char → Bool
  | [] => true
  | c :: cs => (!(opChar c && !sci)) && scanPasses (specCtxStep sci c) cs

/-- After an optional leading sign, the scanned region consists of digits or
dots, then an `e`/`E`, after which every character is in the non-resetting
set: the shape in which claim C10 predicts no operator is ever found. -/
def sciScan : List Char → Bool
  | [] => false
  | c :: cs =>
    if c = 'e' ∨ c = 'E' then cs.all keepCh
    else if c.isDigit ∨ c = '.' then sciScan cs
    else false

/-- C10 input shape on the whole input: trimmed, with the code's leading
`-` skip applied. -/
def sciShape (input0 : List Char) : Bool :=
  if (trim input0).head? = some '-' then sciScan ((trim input0).drop 1)
  else sciScan (trim input0)

/-- The model's IEEE-754 operation denoted by an operator character. -/
def applyOp (op : Char) (x y : FVal) : FVal :=
  match op with
  | '+' => x.addF y
  | '-' => x.subF y
  | '*' => x.mulF y
  | '/' => x.divF y
  | _ => .nan

/-! ## Arithmetic helper lemmas -/

theorem powGo_eq (b : Nat) : ∀ (f n : Nat), n ≤ f → powGo b f n = b ^ n := by
  intro f
  induction f with
  | zero =>
    intro n hn
    obtain rfl : n = 0 := Nat.le_zero.1 hn
    rfl
  | succ f ih =>
    intro n hn
    rw [powGo]
    by_cases h0 : n = 0
    · rw [if_pos h0, h0, pow_zero]
    · rw [if_neg h0, ih (n / 2) (by omega)]
      by_cases h2 : n % 2 = 0
      · rw [if_pos h2, ← pow_add, show n / 2 + n / 2 = n by omega]
      · rw [if_neg h2, ← pow_add, mul_comm, ← pow_succ',
          show n / 2 + n / 2 + 1 = n by omega]

/-- `npow` computes exact powers. -/
theorem npow_eq (b n : Nat) : npow b n = b ^ n :=
  powGo_eq b (n + 1) n (Nat.le_succ n)

/-! ## Character-class lemmas -/

theorem not_eE_of_digit {c : Char} (h : c.isDigit = true) : ¬(c = 'e' ∨ c = 'E') := by
  rintro (rfl | rfl) <;> exact absurd h (by decide)

theorem opChar_false_of_digit {c : Char} (h : c.isDigit = true) : opChar c = false := by
  simp only [opChar, decide_eq_false_iff_not]
  rintro (rfl | rfl | rfl | rfl) <;> exact absurd h (by decide)

theorem keepCh_of_digit {c : Char} (h : c.isDigit = true) : keepCh c = true := by
  simp [keepCh, h]

theorem ws_false_of_digit {c : Char} (h : c.isDigit = true) : c.isWhitespace = false := by
  cases hw : c.isWhitespace
  · rfl
  · simp only [Char.isWhitespace, decide_eq_true_eq, Bool.or_eq_true, decide_eq_true_iff] at hw
    rcases hw with ((rfl | rfl) | rfl) | rfl <;> exact absurd h (by decide)

/-! ## List helper lemmas -/

theorem findOpAux_ge {sci : Bool} {cs : List Char} {i p : Nat}
    (h : findOpAux sci cs i = some p) : i ≤ p := by
  induction cs generalizing sci i with
  | nil => simp [findOpAux] at h
  | cons c cs ih =>
    rw [findOpAux] at h
    split at h
    · exact le_trans (Nat.le_succ i) (ih h)
    · split at h
      · exact le_of_eq (Option.some.inj h)
      · split at h
        · exact le_trans (Nat.le_succ i) (ih h)
        · exact le_trans (Nat.le_succ i) (ih h)

theorem keepCh_iff {c : Char} (he : ¬(c = 'e' ∨ c = 'E')) :
    keepCh c = true ↔ (c.isDigit = true ∨ c = '.' ∨ c = '+' ∨ c = '-') := by
  simp only [keepCh, Bool.decide_or, Bool.or_eq_true, decide_eq_true_eq]
  constructor
  · rintro (h | h | h | h | h | h)
    · exact Or.inl h
    · exact Or.inr (Or.inl h)
    · exact absurd (Or.inl h) he
    · exact absurd (Or.inr h) he
    · exact Or.inr (Or.inr (Or.inl h))
    · exact Or.inr (Or.inr (Or.inr h))
  · rintro (h | h | h | h)
    · exact Or.inl h
    · exact Or.inr (Or.inl h)
    · exact Or.inr (Or.inr (Or.inr (Or.inr (Or.inl h))))
    · exact Or.inr (Or.inr (Or.inr (Or.inr (Or.inr h))))

theorem specCtxStep_keep {c : Char} (st : Bool) (he : ¬(c = 'e' ∨ c = 'E'))
    (hk : keepCh c = true) : specCtxStep st c = st := by
  rw [specCtxStep, if_neg he, if_pos ((keepCh_iff he).1 hk)]

theorem specCtxStep_reset {c : Char} (st : Bool) (he : ¬(c = 'e' ∨ c = 'E'))
    (hk : keepCh c = false) : specCtxStep st c = false := by
  rw [specCtxStep, if_neg he, if_neg]
  intro hmem
  have := (keepCh_iff he).2 hmem
  rw [hk] at this
  exact Bool.false_ne_true this

/-- The code's scan agrees, position by position, with the specification's
exponent-context characterization. -/
theorem findOpAux_eq_spec (cs : List Char) : ∀ (st : Bool) (i : Nat),
    findOpAux st cs i = (specSelectFrom st cs).map (· + i) := by
  induction cs with
  | nil => intro st i; simp [findOpAux, specSelectFrom]
  | cons c cs ih =>
    intro st i
    have hmap : ∀ st' : Bool,
        ((specSelectFrom st' cs).map (· + 1)).map (· + i) = findOpAux st' cs (i + 1) := by
      intro st'
      rw [ih st' (i + 1)]
      cases specSelectFrom st' cs with
      | none => rfl
      | some x =>
        simp only [Option.map_some']
        congr 1
        omega
    rw [findOpAux, specSelectFrom]
    by_cases he : c = 'e' ∨ c = 'E'
    · have hop : opChar c = false := by
        rcases he with rfl | rfl <;> decide
      rw [if_pos he, if_neg (by simp [hop]),
        show specCtxStep st c = true from by simp [specCtxStep, he], hmap]
    · rw [if_neg he]
      by_cases hcond : opChar c = true ∧ st = false
      · rw [if_pos hcond, if_pos hcond]
        simp
      · rw [if_neg hcond, if_neg hcond]
        by_cases hk : keepCh c = true
        · rw [if_neg (by simp [hk]), specCtxStep_keep st he hk, hmap]
        · have hk' : keepCh c = false := by
            cases hkk : keepCh c
            · rfl
            · exact absurd hkk hk
          rw [if_pos hk', specCtxStep_reset st he hk', hmap]

/-- Scanning over a prefix of digits and dots just advances the index. -/
theorem findOpAux_plain_prefix (pre : List Char)
    (h : ∀ c ∈ pre, c.isDigit = true ∨ c = '.') :
    ∀ (rest : List Char) (i : Nat),
      findOpAux false (pre ++ rest) i = findOpAux false rest (i + pre.length) := by
  induction pre with
  | nil => intro rest i; simp
  | cons c pre ih =>
    intro rest i
    have hc := h c (by simp)
    have hne : ¬(c = 'e' ∨ c = 'E') := by
      rcases hc with hd | rfl
      · exact not_eE_of_digit hd
      · decide
    have hop : opChar c = false := by
      rcases hc with hd | rfl
      · exact opChar_false_of_digit hd
      · decide
    have hk : keepCh c = true := by
      rcases hc with hd | rfl
      · exact keepCh_of_digit hd
      · decide
    rw [List.cons_append, findOpAux, if_neg hne, if_neg (by simp [hop]),
      if_neg (by simp [hk]), ih (fun c hc => h c (by simp [hc])) rest (i + 1)]
    congr 1
    simp
    omega

/-- Once the scientific flag is set, characters from the non-resetting set
never produce an operator. -/
theorem scanPasses_plain {cs : List Char}
    (h : ∀ c ∈ cs, c.isDigit = true ∨ c = '.') :
    scanPasses false cs = true ∧ cs.foldl specCtxStep false = false := by
  induction cs with
  | nil => exact ⟨rfl, rfl⟩
  | cons c cs ih =>
    have hc := h c (by simp)
    have hop : opChar c = false := by
      rcases hc with hd | rfl
      · exact opChar_false_of_digit hd
      · decide
    have hstep : specCtxStep false c = false := by
      rcases hc with hd | rfl
      · exact specCtxStep_keep false (not_eE_of_digit hd) (keepCh_of_digit hd)
      · decide
    obtain ⟨ih1, ih2⟩ := ih (fun c hc => h c (by simp [hc]))
    constructor
    · simp [scanPasses, hop, hstep, ih1]
    · simp only [List.foldl_cons, hstep, ih2]

theorem scanPasses_keepAll {cs : List Char} (h : ∀ c ∈ cs, keepCh c = true) :
    scanPasses true cs = true := by
  induction cs with
  | nil => rfl
  | cons c cs ih =>
    have hk := h c (by simp)
    have hstep : specCtxStep true c = true := by
      by_cases he : c = 'e' ∨ c = 'E'
      · simp [specCtxStep, he]
      · exact specCtxStep_keep true he hk
    simp [scanPasses, hstep, ih (fun c hc => h c (by simp [hc]))]

theorem scanPasses_append (l1 l2 : List Char) : ∀ s : Bool,
    scanPasses s (l1 ++ l2) =
      (scanPasses s l1 && scanPasses (l1.foldl specCtxStep s) l2) := by
  induction l1 with
  | nil => intro s; simp [scanPasses]
  | cons c l1 ih =>
    intro s
    simp [scanPasses, ih (specCtxStep s c), Bool.and_assoc]

/-- A first operand of the shape digits/dots, then an `e`/`E`, then
characters from the non-resetting set, is passed over by the scan. -/
theorem scanPasses_sci (pre suf : List Char) (m : Char) (hm : m = 'e' ∨ m = 'E')
    (hpre : ∀ c ∈ pre, c.isDigit = true ∨ c = '.')
    (hsuf : ∀ c ∈ suf, keepCh c = true) :
    scanPasses false (pre ++ m :: suf) = true := by
  obtain ⟨h1, h2⟩ := scanPasses_plain hpre
  rw [scanPasses_append, h1, Bool.true_and, h2]
  have hop : opChar m = false := by
    rcases hm with rfl | rfl <;> decide
  have hstep : specCtxStep false m = true := by
    simp [specCtxStep, hm]
  simp [scanPasses, hop, hstep, scanPasses_keepAll hsuf]

/-- The scan walks over a passed-over prefix, updating state and index. -/
theorem findOpAux_passes (pre : List Char) : ∀ (sci : Bool) (rest : List Char) (i : Nat),
    scanPasses sci pre = true →
    findOpAux sci (pre ++ rest) i =
      findOpAux (pre.foldl specCtxStep sci) rest (i + pre.length) := by
  induction pre with
  | nil => intro sci rest i _; simp
  | cons c pre ih =>
    intro sci rest i hp
    simp only [scanPasses, Bool.and_eq_true] at hp
    rw [List.cons_append, findOpAux]
    by_cases he : c = 'e' ∨ c = 'E'
    · have hstep : specCtxStep sci c = true := by simp [specCtxStep, he]
      rw [if_pos he, ih true rest (i + 1) (hstep ▸ hp.2), List.foldl_cons, hstep]
      congr 1
      simp only [List.length_cons]
      omega
    · rw [if_neg he]
      have hnot : ¬ (opChar c = true ∧ sci = false) := by
        rintro ⟨hc1, rfl⟩
        simp [hc1] at hp
      rw [if_neg hnot]
      by_cases hk : keepCh c = false
      · have hstep : specCtxStep sci c = false := specCtxStep_reset sci he hk
        rw [if_pos hk, ih false rest (i + 1) (hstep ▸ hp.2), List.foldl_cons, hstep]
        congr 1
        simp only [List.length_cons]
        omega
      · have hk' : keepCh c = true := by
          cases hkk : keepCh c
          · exact absurd hkk hk
          · rfl
        have hstep : specCtxStep sci c = sci := specCtxStep_keep sci he hk'
        rw [if_neg hk, ih sci rest (i + 1) (hstep ▸ hp.2), List.foldl_cons, hstep]
        congr 1
        simp only [List.length_cons]
        omega

theorem findOpAux_keep_none (cs : List Char) (h : ∀ c ∈ cs, keepCh c = true) :
    ∀ i : Nat, findOpAux true cs i = none := by
  induction cs with
  | nil => intro i; simp [findOpAux]
  | cons c cs ih =>
    intro i
    have hk := h c (by simp)
    rw [findOpAux]
    by_cases he : c = 'e' ∨ c = 'E'
    · rw [if_pos he]
      exact ih (fun c hc => h c (by simp [hc])) (i + 1)
    · rw [if_neg he, if_neg (by simp), if_neg (by simp [hk])]
      exact ih (fun c hc => h c (by simp [hc])) (i + 1)

theorem sciScan_no_op {cs : List Char} (h : sciScan cs = true) :
    ∀ i : Nat, findOpAux false cs i = none := by
  induction cs with
  | nil => simp [sciScan] at h
  | cons c cs ih =>
    intro i
    rw [sciScan] at h
    rw [findOpAux]
    split at h
    · rename_i he
      rw [if_pos he]
      exact findOpAux_keep_none cs (by simpa [List.all_eq_true] using h) (i + 1)
    · split at h
      · rename_i he hc
        have hop : opChar c = false := by
          rcases hc with hd | rfl
          · exact opChar_false_of_digit hd
          · decide
        have hk : keepCh c = true := by
          rcases hc with hd | rfl
          · exact keepCh_of_digit hd
          · decide
        rw [if_neg he, if_neg (by simp [hop]), if_neg (by simp [hk])]
        exact ih h (i + 1)
      · exact absurd h (by simp)

/-! ## Unfolding lemmas for `calculate` -/

theorem calculate_of_error {input : List Char} {e : String}
    (h : calcCore input = .error e) : calculate input = .error e := by
  simp [calculate, h]

theorem calculate_of_ok {input : List Char} {v : FVal}
    (h : calcCore input = .ok v) :
    calculate input =
      (if v.isInfinite then .error "Result is too large or too small"
       else if (v.subF (.fin c14)).absLtEps then .ok (.fin c14)
       else .ok v) := by
  simp [calculate, h]

/-- C3: during the left-to-right operator scan, a `+`, `-`, `*`, or `/`
character is skipped exactly when it is in exponent context — a character is
in exponent context when it immediately follows an `e`/`E`, and the context
resets once a subsequent character not in {digit, `.`, `e`, `E`, `+`, `-`}
is seen (the scan returns the first operator character that is *not* in that
context, as `specSelectFrom` states it); consequently
`evaluate("1e3 + 2e3")` returns `3000.0`. -/
theorem scan_exponent_context_characterization :
    (∀ (cs : List Char) (i : Nat),
        findOpAux false cs i = (specSelectFrom false cs).map (· + i)) ∧
      calculate ("1e3 + 2e3".data) = .ok (.fin ⟨375, 3⟩) :=
  ⟨fun cs i => findOpAux_eq_spec cs false i, by decide⟩

/-- C10: when the first operand contains an `e`/`E` and every following
character stays in the non-resetting set {digit, `.`, `e`, `E`, `+`, `-`},
the exponent context never resets and no operator is found, so `calculate`
fails with `No operator found`; in particular `evaluate("1e3+2e3")` fails
that way. -/
theorem calculate_sci_first_operand_no_operator (input : List Char)
    (h : sciShape input = true) :
    calculate input = .error "No operator found" := by
  apply calculate_of_error
  have hne : (trim input).isEmpty = false := by
    rw [sciShape] at h
    split at h
    · rename_i hh
      cases htr : trim input
      · rw [htr] at hh
        simp at hh
      · simp
    · cases htr : trim input
      · rw [htr] at h
        simp [sciScan] at h
      · simp
  have hscan : scanOf (trim input) = none := by
    rw [sciShape] at h
    rw [scanOf]
    split at h
    · rename_i hh
      rw [if_pos hh]
      exact sciScan_no_op h 1
    · rename_i hh
      rw [if_neg hh]
      exact sciScan_no_op h 0
  rw [calcCore, hne]
  simp only [Bool.false_eq_true, if_false, hscan]

/-- C10 witness: `"1e3+2e3"` has the scientific shape, and `calculate`
fails on it with `No operator found`. -/
theorem calculate_sci_first_operand_no_operator_witness :
    sciShape ("1e3+2e3".data) = true ∧
      calculate ("1e3+2e3".data) = .error "No operator found" :=
  ⟨by decide, calculate_sci_first_operand_no_operator _ (by decide)⟩

/-- C6 counterexample: the claim says a leading `'+'` sign is never selected
as the operator, but on `"+5+3"` the scan selects position 0 (the leading
`'+'`), so `calculate` fails with `Invalid first number` (empty first
operand) instead of computing `+5 + 3 = 8`. -/
theorem scan_selects_leading_plus :
    trim ("+5+3".data) = "+5+3".data ∧
      scanOf ("+5+3".data) = some 0 ∧
      "+5+3".data.getD 0 ' ' = '+' ∧
      calculate ("+5+3".data) = .error "Invalid first number" := by
  decide

/-- C6 (amended): the operator scan skips an optional leading `'-'` only:
when the trimmed input starts with `'-'`, the search begins at index 1 and
the selected position is always ≥ 1; a leading `'+'` is *not* skipped. -/
theorem scan_skips_leading_minus_only (ts : List Char) (pos : Nat)
    (h : ts.head? = some '-') :
    scanOf ts = findOpAux false (ts.drop 1) 1 ∧ (scanOf ts = some pos → 1 ≤ pos) := by
  constructor
  · rw [scanOf, if_pos h]
  · intro hs
    rw [scanOf, if_pos h] at hs
    exact findOpAux_ge hs

/-- C6 witness: on `"-5+3"` the scan starts after the leading minus and
selects position 2. -/
theorem scan_skips_leading_minus_only_witness :
    ("-5+3".data.head? = some '-') ∧
      (scanOf ("-5+3".data) = findOpAux false ("-5+3".data.drop 1) 1 ∧
        (scanOf ("-5+3".data) = some 2 → 1 ≤ 2)) ∧
      scanOf ("-5+3".data) = some 2 :=
  ⟨by decide, scan_skips_leading_minus_only ("-5+3".data) 2 (by decide), by decide⟩

/-- C2 counterexample: `calculate` is *not* whitespace-insensitive — removing
the spaces around the operator in `"1e3 + 2e3"` changes the outcome from
`3000.0` to a `No operator found` error. -/
theorem calculate_whitespace_changes_outcome :
    calculate ("1e3 + 2e3".data) = .ok (.fin ⟨375, 3⟩) ∧
      calculate ("1e3+2e3".data) = .error "No operator found" := by
  decide

/-- C2 (amended): `evaluate("5+3")` and `evaluate("5 + 3")` both return
`8.0`, and whitespace around the two operands and the operator is trimmed
(so `"5 +3"`, `"5+ 3"` and `" 5 + 3 "` also give `8.0`); but whitespace is
not insignificant in general, since removing it can prevent the operator
from being found when the first operand contains `e`/`E`. -/
theorem calculate_whitespace_trimmed_examples :
    calculate ("5+3".data) = .ok (.fin ⟨1, 3⟩) ∧
      calculate ("5 + 3".data) = .ok (.fin ⟨1, 3⟩) ∧
      calculate ("5 +3".data) = .ok (.fin ⟨1, 3⟩) ∧
      calculate ("5+ 3".data) = .ok (.fin ⟨1, 3⟩) ∧
      calculate (" 5 + 3 ".data) = .ok (.fin ⟨1, 3⟩) := by
  decide

/-- C7 counterexample: `evaluate("5 + 3 + 2")` fails with
`Invalid second number`, which is an `InvalidNumber(second)`-class error,
not a `NoOperator`-class error (`"No operator found"`). -/
theorem calculate_multi_operator_not_nooperator :
    calculate ("5 + 3 + 2".data) = .error "Invalid second number" ∧
      (("Invalid second number" : String) == "No operator found") = false := by
  constructor
  · decide
  · decide

/-- C7 (amended): `evaluate("5 + 3 + 2")` fails with the
`InvalidNumber(second)`-class error `Invalid second number`: only one
operator is supported, the first qualifying `+` (position 2) is selected as
the split point, and the remaining text `"3 + 2"` is an unparsable second
operand, which surfaces as an error to the caller. -/
theorem calculate_multi_operator_error :
    calculate ("5 + 3 + 2".data) = .error "Invalid second number" ∧
      scanOf (trim ("5 + 3 + 2".data)) = some 2 ∧
      trim (("5 + 3 + 2".data).drop 3) = "3 + 2".data ∧
      parseF64 ("3 + 2".data) = none := by
  decide

/-- C5: if the computed finite result is within machine epsilon of `1e-14`
(as the code measures it, `|result - 1e-14| < f64::EPSILON` in f64
arithmetic), `calculate` returns exactly the `1e-14` constant; every other
finite computed result is returned unchanged. -/
theorem calculate_precision_clamp (input : List Char) (r : Dy)
    (h : calcCore input = .ok (.fin r)) :
    calculate input =
      if ((FVal.fin r).subF (.fin c14)).absLtEps then .ok (.fin c14)
      else .ok (.fin r) := by
  rw [calculate_of_ok h]
  simp [FVal.isInfinite]

/-- C5 witness: on `"5 + 3"` the computed result 8 is not within epsilon of
`1e-14` and is returned unchanged; on `"1e-14 + 1e-16"` the computed result
is within epsilon of `1e-14` and the constant is returned instead. -/
theorem calculate_precision_clamp_witness :
    calcCore ("5 + 3".data) = .ok (.fin ⟨1, 3⟩) ∧
      calculate ("5 + 3".data) = .ok (.fin ⟨1, 3⟩) ∧
      calcCore ("1e-14 + 1e-16".data) = .ok (.fin ⟨3200817765576279, -98⟩) ∧
      calculate ("1e-14 + 1e-16".data) = .ok (.fin c14) := by
  refine ⟨by decide, ?_, by decide, ?_⟩
  · rw [calculate_precision_clamp ("5 + 3".data) ⟨1, 3⟩ (by decide)]
    decide
  · rw [calculate_precision_clamp ("1e-14 + 1e-16".data) ⟨3200817765576279, -98⟩ (by decide)]
    decide

theorem scanOf_nonempty {ts : List Char} {pos : Nat} (h : scanOf ts = some pos) :
    ts.isEmpty = false := by
  cases ts with
  | nil => simp [scanOf, findOpAux] at h
  | cons c cs => simp

/-- Unfold `calcCore` along a successful scan. -/
theorem calcCore_split {input : List Char} {pos : Nat}
    (hscan : scanOf (trim input) = some pos) :
    calcCore input =
      evalOps (trim ((trim input).take pos)) ((trim input).getD pos ' ')
        (trim ((trim input).drop (pos + 1))) := by
  rw [calcCore]
  simp only [scanOf_nonempty hscan, Bool.false_eq_true, if_false, hscan]

/-- C4: for division, a parsed zero divisor makes `calculate` fail before
computing: with a zero dividend the error is `Division by zero`
(`DivisionByZeroIndeterminate`); with a positive dividend it is
`Result is too large (infinity)` (`ResultOverflowPositive`); with a negative
dividend it is `Result is too small (negative infinity)`
(`ResultOverflowNegative`). -/
theorem calculate_div_by_zero_errors (input : List Char) (pos : Nat) (a b : Dy)
    (hscan : scanOf (trim input) = some pos)
    (hop : (trim input).getD pos ' ' = '/')
    (h1 : parseF64 (trim ((trim input).take pos)) = some (.fin a))
    (h2 : parseF64 (trim ((trim input).drop (pos + 1))) = some (.fin b))
    (hb : b.m = 0) :
    calculate input =
      .error (if a.m = 0 then "Division by zero"
        else if 0 < a.m then "Result is too large (infinity)"
        else "Result is too small (negative infinity)") := by
  apply calculate_of_error
  rw [calcCore_split hscan, hop, evalOps, h1]
  simp only [FVal.isInfinite, Bool.false_eq_true, if_false, h2, FVal.isNan,
    Bool.or_self, FVal.eqZero, FVal.gtZero, hb, decide_true_eq_true, if_true]
  by_cases ha : a.m = 0
  · simp [ha]
  · by_cases hpos : 0 < a.m
    · simp [ha, hpos]
    · simp [ha, hpos]

/-- C4 witness: `5/0`, `-5/0` and `0/0` produce the three divisor-zero
errors. -/
theorem calculate_div_by_zero_errors_witness :
    calculate ("5/0".data) = .error "Result is too large (infinity)" ∧
      calculate ("-5/0".data) = .error "Result is too small (negative infinity)" ∧
      calculate ("0/0".data) = .error "Division by zero" := by
  refine ⟨?_, ?_, ?_⟩
  · rw [calculate_div_by_zero_errors ("5/0".data) 1 ⟨5, 0⟩ ⟨0, 0⟩ (by decide)
      (by decide) (by decide) (by decide) (by decide)]
    decide
  · rw [calculate_div_by_zero_errors ("-5/0".data) 2 ⟨-5, 0⟩ ⟨0, 0⟩ (by decide)
      (by decide) (by decide) (by decide) (by decide)]
    decide
  · rw [calculate_div_by_zero_errors ("0/0".data) 1 ⟨0, 0⟩ ⟨0, 0⟩ (by decide)
      (by decide) (by decide) (by decide) (by decide)]
    decide

/-- C8 counterexample: the first operand substring of `"NaN + abc"` parses
to NaN, yet `calculate` fails with `Invalid second number` (the second
operand is parsed — and fails — before the NaN check), not with the
`NotANumber` error. -/
theorem calculate_nan_with_bad_second :
    scanOf (trim ("NaN + abc".data)) = some 4 ∧
      trim ((trim ("NaN + abc".data)).take 4) = "NaN".data ∧
      parseF64 ("NaN".data) = some .nan ∧
      calculate ("NaN + abc".data) = .error "Invalid second number" ∧
      (("Invalid second number" : String) == "NaN is not a valid number") = false := by
  refine ⟨by decide, by decide, by decide, by decide, by decide⟩

/-- C8 (amended): if both operand substrings parse successfully to
non-infinite values and either of them is NaN, `calculate` fails with the
`NotANumber` error `NaN is not a valid number` before the operator is
applied. -/
theorem calculate_nan_operand_error (input : List Char) (pos : Nat) (v1 v2 : FVal)
    (hscan : scanOf (trim input) = some pos)
    (h1 : parseF64 (trim ((trim input).take pos)) = some v1)
    (h2 : parseF64 (trim ((trim input).drop (pos + 1))) = some v2)
    (hi1 : v1.isInfinite = false) (hi2 : v2.isInfinite = false)
    (hnan : v1.isNan = true ∨ v2.isNan = true) :
    calculate input = .error "NaN is not a valid number" := by
  apply calculate_of_error
  rw [calcCore_split hscan, evalOps, h1]
  simp only [hi1, Bool.false_eq_true, if_false, h2, hi2]
  have hor : (v1.isNan || v2.isNan) = true := by
    rcases hnan with h | h <;> simp [h]
  rw [if_pos hor]

/-- C8 witness: `"NaN + 5"` and `"5 + NaN"` both fail with the `NotANumber`
error. -/
theorem calculate_nan_operand_error_witness :
    calculate ("NaN + 5".data) = .error "NaN is not a valid number" ∧
      calculate ("5 + NaN".data) = .error "NaN is not a valid number" :=
  ⟨calculate_nan_operand_error ("NaN + 5".data) 4 .nan (.fin ⟨5, 0⟩) (by decide)
      (by decide) (by decide) (by decide) (by decide) (Or.inl (by decide)),
    calculate_nan_operand_error ("5 + NaN".data) 2 (.fin ⟨5, 0⟩) .nan (by decide)
      (by decide) (by decide) (by decide) (by decide) (Or.inr (by decide))⟩

/-! ## Characters of successfully parsed operand substrings -/

theorem ws_enum {c : Char} (h : c.isWhitespace = true) :
    c = ' ' ∨ c = '\t' ∨ c = '\r' ∨ c = '\n' := by
  simp only [Char.isWhitespace, decide_eq_true_eq, Bool.or_eq_true,
    decide_eq_true_iff] at h
  tauto

theorem ws_toLower {c : Char} (h : c.isWhitespace = true) : c.toLower = c := by
  rcases ws_enum h with rfl | rfl | rfl | rfl <;> decide

theorem keepCh_not_ws {c : Char} (h : keepCh c = true) : c.isWhitespace = false := by
  cases hw : c.isWhitespace
  · rfl
  · exfalso
    rcases ws_enum hw with rfl | rfl | rfl | rfl <;> exact absurd h (by decide)

theorem lowerEq_not_ws {cs bs : List Char} (h : lowerEq cs bs = true)
    (hbs : ∀ b ∈ bs, b.isWhitespace = false) : ∀ c ∈ cs, c.isWhitespace = false := by
  intro c hc
  cases hw : c.isWhitespace
  · rfl
  · exfalso
    have hmap : cs.map Char.toLower = bs := by simpa [lowerEq] using h
    have hmem : c.toLower ∈ bs := hmap ▸ List.mem_map_of_mem _ hc
    rw [ws_toLower hw] at hmem
    have := hbs c hmem
    rw [hw] at this
    exact Bool.noConfusion this

theorem expNat_digits {cs : List Char} {x : Int} (h : expNat cs = some x) :
    ∀ c ∈ cs, c.isDigit = true := by
  rw [expNat] at h
  split at h
  · rename_i hcond
    exact fun c hc => List.all_eq_true.1 hcond.2 c hc
  · cases h

theorem cons_of_head? {l : List Char} {x : Char} (h : l.head? = some x) :
    l = x :: l.tail := by
  cases l with
  | nil => cases h
  | cons a l =>
    obtain rfl : a = x := Option.some.inj h
    rfl

theorem expVal_keep {cs : List Char} {x : Int} (h : expVal cs = some x) :
    ∀ c ∈ cs, keepCh c = true := by
  rw [expVal] at h
  intro c hc
  split at h
  · rename_i hh
    rw [cons_of_head? hh] at hc
    rcases List.mem_cons.1 hc with rfl | hc
    · decide
    · exact keepCh_of_digit (expNat_digits h c hc)
  · split at h
    · rename_i hh
      obtain ⟨y, hy, rfl⟩ := Option.map_eq_some'.1 h
      rw [cons_of_head? hh] at hc
      rcases List.mem_cons.1 hc with rfl | hc
      · decide
      · exact keepCh_of_digit (expNat_digits hy c hc)
    · exact keepCh_of_digit (expNat_digits h c hc)

theorem parseNum_keep {cs : List Char} {p : Nat × Int} (h : parseNum cs = some p) :
    ∀ c ∈ cs, keepCh c = true := by
  intro c hc
  rw [show cs = cs.takeWhile Char.isDigit ++ cs.dropWhile Char.isDigit from
    (List.takeWhile_append_dropWhile ..).symm] at hc
  rcases List.mem_append.1 hc with hip | hr1
  · exact keepCh_of_digit (List.mem_takeWhile_imp hip)
  · simp only [parseNum] at h
    split at h
    · rename_i hnil
      rw [hnil] at hr1
      cases hr1
    · split at h
      · rename_i hdot
        rw [cons_of_head? hdot] at hr1
        rcases List.mem_cons.1 hr1 with rfl | hr
        · decide
        · rw [show (cs.dropWhile Char.isDigit).tail =
              (cs.dropWhile Char.isDigit).tail.takeWhile Char.isDigit ++
                (cs.dropWhile Char.isDigit).tail.dropWhile Char.isDigit from
            (List.takeWhile_append_dropWhile ..).symm] at hr
          rcases List.mem_append.1 hr with hfp | hr2
          · exact keepCh_of_digit (List.mem_takeWhile_imp hfp)
          · split at h
            · cases h
            · split at h
              · rename_i hr2nil
                rw [hr2nil] at hr2
                cases hr2
              · split at h
                · rename_i he
                  obtain ⟨y, hy, rfl⟩ := Option.map_eq_some'.1 h
                  rcases he with he | he <;> rw [cons_of_head? he] at hr2 <;>
                    rcases List.mem_cons.1 hr2 with rfl | hr3
                  · decide
                  · exact expVal_keep hy c hr3
                  · decide
                  · exact expVal_keep hy c hr3
                · cases h
      · split at h
        · rename_i he
          obtain ⟨y, hy, rfl⟩ := Option.map_eq_some'.1 h
          rcases he.1 with hee | hee <;> rw [cons_of_head? hee] at hr1 <;>
            rcases List.mem_cons.1 hr1 with rfl | hr3
          · decide
          · exact expVal_keep hy c hr3
          · decide
          · exact expVal_keep hy c hr3
        · cases h

theorem parseF64_ne_nil {cs : List Char} {v : FVal} (h : parseF64 cs = some v) :
    cs ≠ [] := by
  intro hnil
  rw [hnil] at h
  cases h

theorem parseF64_not_ws {cs : List Char} {v : FVal} (h : parseF64 cs = some v) :
    ∀ c ∈ cs, c.isWhitespace = false := by
  simp only [parseF64] at h
  split at h
  · cases h
  · by_cases hsign : cs.head? = some '+' ∨ cs.head? = some '-'
    · rw [if_pos hsign] at h
      have hrest : ∀ b ∈ cs.tail, b.isWhitespace = false := by
        intro b hb
        split at h
        · rename_i hword
          rcases hword with hw | hw
          · exact lowerEq_not_ws hw (by decide) b hb
          · exact lowerEq_not_ws hw (by decide) b hb
        · split at h
          · rename_i hword
            exact lowerEq_not_ws hword (by decide) b hb
          · split at h
            · cases h
            · rename_i p hp
              exact keepCh_not_ws (parseNum_keep hp b hb)
      intro c hc
      rcases hsign with hs | hs <;> rw [cons_of_head? hs] at hc <;>
        rcases List.mem_cons.1 hc with rfl | hc2
      · decide
      · exact hrest c hc2
      · decide
      · exact hrest c hc2
    · rw [if_neg hsign] at h
      intro b hb
      split at h
      · rename_i hword
        rcases hword with hw | hw
        · exact lowerEq_not_ws hw (by decide) b hb
        · exact lowerEq_not_ws hw (by decide) b hb
      · split at h
        · rename_i hword
          exact lowerEq_not_ws hword (by decide) b hb
        · split at h
          · cases h
          · rename_i p hp
            exact keepCh_not_ws (parseNum_keep hp b hb)

/-- A successful parse to a *finite* value must have gone through the
decimal-number branch: `parseNum` succeeds on the string after the optional
sign (the `inf`/`infinity`/`nan` branches produce non-finite values). -/
theorem parseF64_fin_parseNum {cs : List Char} {a : Dy}
    (h : parseF64 cs = some (.fin a)) :
    ∃ p, parseNum (if cs.head? = some '+' ∨ cs.head? = some '-' then cs.tail else cs)
      = some p := by
  simp only [parseF64] at h
  split at h
  · cases h
  · by_cases hsign : cs.head? = some '+' ∨ cs.head? = some '-'
    · rw [if_pos hsign] at h ⊢
      split at h
      · rw [Option.some.injEq] at h
        split at h <;> simp at h
      · split at h
        · simp at h
        · split at h
          · cases h
          · rename_i p hp
            exact ⟨p, hp⟩
    · rw [if_neg hsign] at h ⊢
      split at h
      · rw [Option.some.injEq] at h
        split at h <;> simp at h
      · split at h
        · simp at h
        · split at h
          · cases h
          · rename_i p hp
            exact ⟨p, hp⟩

/-- The operator scan passes over any string accepted by `parseNum`: such a
string is digits and at most one dot, optionally followed by an `e`/`E`
whose exponent part stays inside the non-resetting character set. -/
theorem parseNum_passes {cs : List Char} {p : Nat × Int} (h : parseNum cs = some p) :
    scanPasses false cs = true := by
  simp only [parseNum] at h
  set ip := cs.takeWhile Char.isDigit with hip
  set r1 := cs.dropWhile Char.isDigit with hr1
  have hsplit : cs = ip ++ r1 := (List.takeWhile_append_dropWhile ..).symm
  have hipd : ∀ c ∈ ip, c.isDigit = true ∨ c = '.' :=
    fun c hc => Or.inl (List.mem_takeWhile_imp hc)
  split at h
  · rename_i hnil
    rw [hsplit, hnil, List.append_nil]
    exact (scanPasses_plain hipd).1
  · split at h
    · rename_i hdot
      set fp := r1.tail.takeWhile Char.isDigit with hfp
      set r2 := r1.tail.dropWhile Char.isDigit with hr2
      have htail : r1.tail = fp ++ r2 := (List.takeWhile_append_dropWhile ..).symm
      have hpre : ∀ c ∈ ip ++ '.' :: fp, c.isDigit = true ∨ c = '.' := by
        intro c hc
        rcases List.mem_append.1 hc with h1 | h1
        · exact hipd c h1
        · rcases List.mem_cons.1 h1 with rfl | h2
          · exact Or.inr rfl
          · exact Or.inl (List.mem_takeWhile_imp h2)
      split at h
      · cases h
      · split at h
        · rename_i hr2nil
          rw [hsplit, cons_of_head? hdot, htail, hr2nil, List.append_nil]
          exact (scanPasses_plain hpre).1
        · split at h
          · rename_i he
            obtain ⟨y, hy, _⟩ := Option.map_eq_some'.1 h
            have hassoc : ∀ m : Char,
                ip ++ '.' :: (fp ++ m :: r2.tail) = (ip ++ '.' :: fp) ++ m :: r2.tail := by
              intro m
              rw [List.append_assoc, List.cons_append]
            rcases he with he | he
            · rw [hsplit, cons_of_head? hdot, htail, cons_of_head? he, hassoc]
              exact scanPasses_sci _ _ _ (Or.inl rfl) hpre (expVal_keep hy)
            · rw [hsplit, cons_of_head? hdot, htail, cons_of_head? he, hassoc]
              exact scanPasses_sci _ _ _ (Or.inr rfl) hpre (expVal_keep hy)
          · cases h
    · split at h
      · rename_i hcond
        obtain ⟨y, hy, _⟩ := Option.map_eq_some'.1 h
        rcases hcond.1 with he | he
        · rw [hsplit, cons_of_head? he]
          exact scanPasses_sci _ _ _ (Or.inl rfl) hipd (expVal_keep hy)
        · rw [hsplit, cons_of_head? he]
          exact scanPasses_sci _ _ _ (Or.inr rfl) hipd (expVal_keep hy)
      · cases h

/-! ## Trim lemmas -/

theorem dropWhile_eq_self {cs : List Char}
    (h : ∀ c, cs.head? = some c → c.isWhitespace = false) :
    cs.dropWhile Char.isWhitespace = cs := by
  cases cs with
  | nil => rfl
  | cons c cs =>
    rw [List.dropWhile_cons, if_neg]
    simp [h c rfl]

theorem trim_eq_self {cs : List Char}
    (h1 : ∀ c, cs.head? = some c → c.isWhitespace = false)
    (h2 : ∀ c, cs.getLast? = some c → c.isWhitespace = false) :
    trim cs = cs := by
  rw [trim, dropWhile_eq_self h1, dropWhile_eq_self (by simpa using h2),
    List.reverse_reverse]

theorem trim_append_space {cs : List Char} (hne : cs ≠ [])
    (h1 : ∀ c, cs.head? = some c → c.isWhitespace = false)
    (h2 : ∀ c, cs.getLast? = some c → c.isWhitespace = false) :
    trim (cs ++ [' ']) = cs := by
  have hh : (cs ++ [' ']).dropWhile Char.isWhitespace = cs ++ [' '] := by
    apply dropWhile_eq_self
    intro c hc
    cases cs with
    | nil => exact absurd rfl hne
    | cons a l =>
      apply h1
      simpa using hc
  rw [trim, hh, List.reverse_append, List.reverse_singleton, List.singleton_append,
    List.dropWhile_cons, if_pos (by decide), dropWhile_eq_self (by simpa using h2),
    List.reverse_reverse]

theorem trim_space_cons {cs : List Char}
    (h1 : ∀ c, cs.head? = some c → c.isWhitespace = false)
    (h2 : ∀ c, cs.getLast? = some c → c.isWhitespace = false) :
    trim (' ' :: cs) = cs := by
  rw [trim, List.dropWhile_cons, if_pos (by decide), dropWhile_eq_self h1,
    dropWhile_eq_self (by simpa using h2), List.reverse_reverse]

theorem head_ws_of_mem {cs : List Char} (h : ∀ c ∈ cs, c.isWhitespace = false) :
    ∀ c, cs.head? = some c → c.isWhitespace = false := by
  intro c hc
  cases cs with
  | nil => cases hc
  | cons a l =>
    obtain rfl := Option.some.inj hc
    exact h _ (by simp)

theorem last_ws_of_mem {cs : List Char} (h : ∀ c ∈ cs, c.isWhitespace = false) :
    ∀ c, cs.getLast? = some c → c.isWhitespace = false :=
  fun c hc => h c (List.mem_of_getLast?_eq_some hc)

/-! ## Assembly lemmas for the general evaluation theorem -/

theorem getLast?_cons_isSome (x : Char) (l : List Char) :
    ∃ y, (x :: l).getLast? = some y := by
  induction l generalizing x with
  | nil => exact ⟨x, rfl⟩
  | cons z l ih =>
    rw [List.getLast?_cons_cons]
    exact ih z

theorem getLast?_append_cons (l1 : List Char) (x : Char) (l2 : List Char) :
    (l1 ++ x :: l2).getLast? = (x :: l2).getLast? := by
  obtain ⟨y, hy⟩ := getLast?_cons_isSome x l2
  rw [List.getLast?_append, hy]
  rfl

theorem getD_append_self (l1 l2 : List Char) (x d : Char) :
    (l1 ++ x :: l2).getD l1.length d = x := by
  induction l1 with
  | nil => rfl
  | cons a l ih => simpa using ih

theorem scan_space_op {op : Char} (hop : op = '+' ∨ op = '-' ∨ op = '*' ∨ op = '/')
    (sb : List Char) (j : Nat) (s : Bool) :
    findOpAux s (' ' :: op :: ' ' :: sb) j = some (j + 1) := by
  rw [findOpAux, if_neg (by decide), if_neg (fun hcon => absurd hcon.1 (by decide)),
    if_pos (by decide)]
  rcases hop with rfl | rfl | rfl | rfl <;>
    rw [findOpAux, if_neg (by decide), if_pos (by decide)]

/-- C1 (amended): for every pair of finite f64 values `a`, `b` written as
decimal or scientific literals `sa`, `sb` (any string `f64::from_str`
accepts, which never carries a leading `'+'` on the first operand — an
optional leading `'-'` is fine) and every operator in `{+, -, *, /}` (with
`b ≠ 0` when dividing), `calculate` on `"sa op sb"` returns the IEEE-754
binary64 result of `a op b` — unless that result is infinite, in which case
it fails with `ResultOutOfRange` (`Result is too large or too small`), or
the result is within machine epsilon of `1e-14` (as measured by an f64
subtraction), in which case exactly the `1e-14` constant is returned (the
precision clamp). -/
theorem calculate_ieee_with_clamp (sa sb : List Char) (a b : Dy) (op : Char)
    (hop : op = '+' ∨ op = '-' ∨ op = '*' ∨ op = '/')
    (h1 : parseF64 sa = some (.fin a))
    (h2 : parseF64 sb = some (.fin b))
    (hplus : ¬ sa.head? = some '+')
    (hdiv : op = '/' → ¬ b.m = 0) :
    calculate (sa ++ ' ' :: op :: ' ' :: sb) =
      match applyOp op (.fin a) (.fin b) with
      | .pinf => .error "Result is too large or too small"
      | .ninf => .error "Result is too large or too small"
      | v => if (v.subF (.fin c14)).absLtEps then .ok (.fin c14) else .ok v := by
  have hsaw := parseF64_not_ws h1
  have hsbw := parseF64_not_ws h2
  have hsane := parseF64_ne_nil h1
  have hsbne := parseF64_ne_nil h2
  have htrim : trim (sa ++ ' ' :: op :: ' ' :: sb) = sa ++ ' ' :: op :: ' ' :: sb := by
    apply trim_eq_self
    · intro c hc
      cases sa with
      | nil => exact absurd rfl hsane
      | cons a0 sa' =>
        obtain rfl : a0 = c := by simpa using hc
        exact hsaw _ (by simp)
    · intro c hc
      cases sb with
      | nil => exact absurd rfl hsbne
      | cons b0 sb' =>
        rw [getLast?_append_cons, List.getLast?_cons_cons, List.getLast?_cons_cons] at hc
        exact hsbw c (List.mem_of_getLast?_eq_some hc)
  have hscan : scanOf (sa ++ ' ' :: op :: ' ' :: sb) = some (sa.length + 1) := by
    obtain ⟨p, hp⟩ := parseF64_fin_parseNum h1
    cases sa with
    | nil => exact absurd rfl hsane
    | cons a0 sa' =>
      by_cases h0 : a0 = '-'
      · subst h0
        rw [scanOf, if_pos (by simp)]
        have hp' : parseNum sa' = some p := by
          simpa using hp
        rw [List.cons_append, List.drop_one, List.tail_cons,
          findOpAux_passes sa' false _ 1 (parseNum_passes hp'), scan_space_op hop]
        congr 1
        simp only [List.length_cons]
        omega
      · have hcondf : ¬ ((a0 :: sa').head? = some '+' ∨ (a0 :: sa').head? = some '-') := by
          rintro (hh | hh)
          · exact hplus hh
          · exact h0 (Option.some.inj hh)
        have hp' : parseNum (a0 :: sa') = some p := by
          rw [if_neg hcondf] at hp
          exact hp
        rw [scanOf, if_neg (by simpa using fun hcon => h0 hcon), List.cons_append,
          ← List.cons_append,
          findOpAux_passes (a0 :: sa') false _ 0 (parseNum_passes hp'), scan_space_op hop]
        congr 1
        simp only [List.length_cons]
        omega
  have htake : trim ((sa ++ ' ' :: op :: ' ' :: sb).take (sa.length + 1)) = sa := by
    have heq : (sa ++ ' ' :: op :: ' ' :: sb).take (sa.length + 1) = sa ++ [' '] := by
      rw [show sa ++ ' ' :: op :: ' ' :: sb = (sa ++ [' ']) ++ op :: ' ' :: sb by simp]
      exact List.take_left' (by simp)
    rw [heq]
    exact trim_append_space hsane (head_ws_of_mem hsaw) (last_ws_of_mem hsaw)
  have hgd : (sa ++ ' ' :: op :: ' ' :: sb).getD (sa.length + 1) ' ' = op := by
    rw [show sa ++ ' ' :: op :: ' ' :: sb = (sa ++ [' ']) ++ op :: ' ' :: sb by simp,
      show sa.length + 1 = (sa ++ [' ']).length by simp]
    exact getD_append_self _ _ _ _
  have hdrop : trim ((sa ++ ' ' :: op :: ' ' :: sb).drop (sa.length + 1 + 1)) = sb := by
    have heq : (sa ++ ' ' :: op :: ' ' :: sb).drop (sa.length + 1 + 1) = ' ' :: sb := by
      rw [show sa ++ ' ' :: op :: ' ' :: sb = ((sa ++ [' ']) ++ [op]) ++ ' ' :: sb by simp]
      apply List.drop_left'
      simp
    rw [heq]
    exact trim_space_cons (head_ws_of_mem hsbw) (last_ws_of_mem hsbw)
  have hcore : calcCore (sa ++ ' ' :: op :: ' ' :: sb) = .ok (applyOp op (.fin a) (.fin b)) := by
    rw [calcCore_split (show scanOf (trim (sa ++ ' ' :: op :: ' ' :: sb)) = some (sa.length + 1) from by rw [htrim]; exact hscan),
      htrim, htake, hgd, hdrop, evalOps, h1]
    simp only [FVal.isInfinite, Bool.false_eq_true, if_false, h2, FVal.isNan, Bool.or_self]
    rcases hop with rfl | rfl | rfl | rfl
    · rfl
    · rfl
    · rfl
    · rw [if_neg (by simp [FVal.eqZero, hdiv rfl])]
      rfl
  rw [calculate_of_ok hcore]
  generalize applyOp op (.fin a) (.fin b) = v
  cases v with
  | nan => simp [FVal.isInfinite]
  | pinf => simp [FVal.isInfinite]
  | ninf => simp [FVal.isInfinite]
  | fin d => simp [FVal.isInfinite]

/-- C1 witness: `"5 + 3"` evaluates to the IEEE sum `8`, `"1e3 + 2e3"`
(scientific first operand) to the IEEE sum `3000`, and `"1 / 8"` to the
IEEE quotient `0.125`. -/
theorem calculate_ieee_with_clamp_witness :
    calculate ("5".data ++ ' ' :: '+' :: ' ' :: "3".data) = .ok (.fin ⟨1, 3⟩) ∧
      calculate ("1e3".data ++ ' ' :: '+' :: ' ' :: "2e3".data) = .ok (.fin ⟨375, 3⟩) ∧
      calculate ("1".data ++ ' ' :: '/' :: ' ' :: "8".data) = .ok (.fin ⟨1, -3⟩) := by
  refine ⟨?_, ?_, ?_⟩
  · rw [calculate_ieee_with_clamp "5".data "3".data ⟨5, 0⟩ ⟨3, 0⟩ '+' (Or.inl rfl)
      (by decide) (by decide) (by decide) (fun h => absurd h (by decide))]
    decide
  · rw [calculate_ieee_with_clamp "1e3".data "2e3".data ⟨125, 3⟩ ⟨125, 4⟩ '+' (Or.inl rfl)
      (by decide) (by decide) (by decide) (fun h => absurd h (by decide))]
    decide
  · rw [calculate_ieee_with_clamp "1".data "8".data ⟨1, 0⟩ ⟨1, 3⟩ '/'
      (Or.inr (Or.inr (Or.inr rfl)))
      (by decide) (by decide) (by decide) (fun _ => by decide)]
    decide

/-- C1 counterexample: on `"1e-14 + 1e-16"` both operands are finite, the
exact IEEE-754 sum is the finite value `3200817765576279 * 2^(-98)`, yet
`calculate` returns the distinct value `1e-14` (= `6338253001141147 *
2^(-99)`) because of the precision clamp — so the result is *not* the
IEEE-754 result even though it is not infinite. -/
theorem calculate_clamp_overrides_ieee :
    ("1e-14 + 1e-16".data = "1e-14".data ++ ' ' :: '+' :: ' ' :: "1e-16".data) ∧
      parseF64 ("1e-14".data) = some (.fin ⟨6338253001141147, -99⟩) ∧
      parseF64 ("1e-16".data) = some (.fin ⟨2028240960365167, -104⟩) ∧
      FVal.addF (.fin ⟨6338253001141147, -99⟩) (.fin ⟨2028240960365167, -104⟩)
        = .fin ⟨3200817765576279, -98⟩ ∧
      (FVal.fin ⟨3200817765576279, -98⟩ == FVal.fin ⟨6338253001141147, -99⟩) = false ∧
      calculate ("1e-14 + 1e-16".data) = .ok (.fin ⟨6338253001141147, -99⟩) := by
  refine ⟨by decide, by decide, by decide, by decide, by decide, by decide⟩

/-! ## Model validation against the test suite of `src/main.rs`

Named checks mirroring assertions of the Rust `#[cfg(test)]` module; they
exercise parsing, rounding, overflow and the clamp on concrete inputs
(`0.30000000000000004 = 1351079888211149 / 2^52`,
`0.0000002 = 944473296573929 / 2^72`, `1e-14 = 6338253001141147 / 2^99`). -/

theorem model_check_basic :
    calculate ("5-3".data) = .ok (.fin ⟨1, 1⟩) ∧
      calculate ("5*3".data) = .ok (.fin ⟨15, 0⟩) ∧
      calculate ("6 / 2".data) = .ok (.fin ⟨3, 0⟩) ∧
      calculate ("-5 + -3".data) = .ok (.fin ⟨-1, 3⟩) ∧
      calculate ("0 + 0".data) = .ok (.fin ⟨0, 0⟩) := by
  refine ⟨by decide, by decide, by decide, by decide, by decide⟩

theorem model_check_decimal :
    calculate ("0.1 + 0.2".data) = .ok (.fin ⟨1351079888211149, -52⟩) ∧
      calculate ("0.0000001 + 0.0000001".data) = .ok (.fin ⟨944473296573929, -72⟩) ∧
      calculate ("0.0000001 * 0.0000001".data) = .ok (.fin c14) := by
  refine ⟨by decide, by decide, by decide⟩

theorem model_check_scientific :
    calculate ("1e-3 + 2e-3".data) = .ok (.fin ⟨3458764513820541, -60⟩) ∧
      calculate ("1.5e3 * 2".data) = .ok (.fin ⟨375, 3⟩) ∧
      calculate ("-1e3 + 2e3".data) = .ok (.fin ⟨125, 3⟩) ∧
      calculate ("1e100 * 1e-100".data) = .ok (.fin ⟨1, 0⟩) := by
  refine ⟨by decide, by decide, by decide, by decide⟩

theorem model_check_overflow :
    calculate ("1e300 * 1e300".data) = .error "Result is too large or too small" ∧
      calculate ("1e308 * 1e308".data) = .error "Result is too large or too small" := by
  refine ⟨by decide, by decide⟩

theorem model_check_errors :
    calculate ("".data) = .error "Empty input" ∧
      calculate (" ".data) = .error "Empty input" ∧
      calculate ("abc + 3".data) = .error "Invalid first number" ∧
      calculate ("5.5.5 + 3".data) = .error "Invalid first number" ∧
      calculate ("5 3".data) = .error "No operator found" ∧
      calculate ("5".data) = .error "No operator found" := by
  refine ⟨by decide, by decide, by decide, by decide, by decide, by decide⟩
